import Mathlib

/-!
Verification of the import-dependency scanner in import_utils.py.

The development shallowly embeds the core pipeline of the scanner:
  - the AST walker (class ImportLister, methods visit_Import and
    visit_ImportFrom) which records, for every import statement, the
    leading segment of the dotted module name together with the file
    path, line number and column offset of the statement;
  - the aggregator (function collect_non_builtins) which classifies
    every module as required (some occurrence at column offset 0,
    mapped to an empty evidence collection) or optional (mapped to the
    occurrences with positive column offset), optionally excluding
    modules found in the installable-module catalog;
  - the reporter ordering (function display_imports, which iterates
    the aggregated mapping through the builtin sorted());
  - the notebook source extraction in main (per-line filtering of
    cells, the dead cell-level startswith check, and the newline
    anchored regular expressions that strip magic and shell-escape
    lines from the concatenated source);
  - the per-file driver loop in main, including the fact that the
    call import_lister.visit(tree) sits outside the try/except that
    guards ast.parse.

Python dictionaries are embedded as association lists that preserve
insertion order; machine strings are Lean String values (a structure
holding a list of characters), and the CPython ast.parse collaborator
is a parameter of the driver, instantiated on concrete sources by a
finite table that mirrors the real parser output on those sources.
-/

namespace ImportUtils

/-- One recorded import occurrence: the metadata tuple
(self.filepath, node.lineno, node.col_offset) appended by
ImportLister. -/
structure Occ where
  filepath : String
  lineno : Nat
  col_offset : Nat
deriving DecidableEq

/-- The imports dictionary of ImportLister: a mapping from module name
to the list of its occurrences, in insertion order (Python dict +
defaultdict(list)). -/
abbrev Index := List (String × List Occ)

/-- Append one occurrence to the entry of a module, creating the entry
at the end when the module is new; this is exactly the effect of
self.imports[mod].append(meta) on a defaultdict(list). -/
def indexAppend (idx : Index) (mod : String) (meta : Occ) : Index :=
  match idx with
  | [] => [(mod, [meta])]
  | (k, v) :: rest =>
    if k = mod then (k, v ++ [meta]) :: rest
    else (k, v) :: indexAppend rest mod meta

/-- Dictionary lookup on the association list (first entry wins; the
walker keeps keys unique, so this is plain dict access). -/
def lookupMod (idx : Index) (mod : String) : Option (List Occ) :=
  match idx with
  | [] => none
  | (k, v) :: rest => if k = mod then some v else lookupMod rest mod

/-- Characters of a name before the first period: the list-level body
of name.split(".", 1)[0]. -/
def takeUntilDot : List Char → List Char
  | [] => []
  | c :: rest => if c = '.' then [] else c :: takeUntilDot rest

/-- The module name recorded for an import target: the source keeps
only the text before the first period when the name is dotted
(if "." in name: mod = name.split(".", 1)[0] else: mod = name). -/
def truncate_module (name : String) : String :=
  if '.' ∈ name.data then { data := takeUntilDot name.data } else name

mutual
/-- AST statements, as far as the walker observes them: an import
statement with its list of dotted names, a from-import statement with
its optional module, relative level and position, or any other
statement, into whose children generic_visit descends. -/
inductive Stmt where
  | imp : List String → Nat → Nat → Stmt
  | impFrom : Option String → Nat → Nat → Nat → Stmt
  | other : StmtList → Stmt

/-- A list of statements (a Module body or the body of a compound
statement), kept as its own inductive so the walker can recurse
structurally. -/
inductive StmtList where
  | nil : StmtList
  | cons : Stmt → StmtList → StmtList
end

mutual
/-- ImportLister.visit on a single statement: visit_Import appends one
occurrence per name in the statement (truncating dotted names),
visit_ImportFrom records the module only when the relative level is
zero, and every other statement is traversed generically. The case of
a from-import with level zero and no module cannot be produced by
ast.parse and leaves the index unchanged. -/
def visit_stmt (filepath : String) (idx : Index) : Stmt → Index
  | Stmt.imp names lineno col =>
    names.foldl
      (fun acc n => indexAppend acc (truncate_module n) ⟨filepath, lineno, col⟩)
      idx
  | Stmt.impFrom module level lineno col =>
    if level = 0 then
      match module with
      | some m => indexAppend idx (truncate_module m) ⟨filepath, lineno, col⟩
      | none => idx
    else idx
  | Stmt.other body => visit_body filepath idx body

/-- Traversal of a statement list in order, threading the index. -/
def visit_body (filepath : String) (idx : Index) : StmtList → Index
  | StmtList.nil => idx
  | StmtList.cons s rest => visit_body filepath (visit_stmt filepath idx s) rest
end

/-- collect_non_builtins: walk the imports dictionary in insertion
order; drop a module when exclusion is requested and the module is in
the installable-module catalog; otherwise classify it: any occurrence
at column offset 0 makes it required (empty evidence), else it keeps
the occurrences with positive column offset. The catalog, computed in
the source from sys.builtin_module_names and pkgutil.iter_modules, is
an environment snapshot and enters here as a parameter. -/
def collect_non_builtins (installable_modules : List String)
    (exclude_installable : Bool) : Index → Index
  | [] => []
  | (mod_import, metadata) :: rest =>
    if exclude_installable ∧ mod_import ∈ installable_modules then
      collect_non_builtins installable_modules exclude_installable rest
    else
      let required := metadata.any (fun meta => meta.col_offset == 0)
      if required then
        (mod_import, []) :: collect_non_builtins installable_modules exclude_installable rest
      else
        (mod_import, metadata.filter (fun meta => decide (0 < meta.col_offset))) ::
          collect_non_builtins installable_modules exclude_installable rest

/-- The lexicographic comparison of two strings by code points, the
order used by the builtin sorted() on strings. -/
def pyStrLe (a b : String) : Prop := a.data ≤ b.data

instance : DecidableRel pyStrLe := fun a b =>
  (inferInstance : Decidable (a.data ≤ b.data))

instance : IsTotal String pyStrLe := ⟨fun a b => le_total a.data b.data⟩

instance : IsTrans String pyStrLe := ⟨fun _ _ _ h1 h2 => le_trans h1 h2⟩

instance : IsAntisymm String pyStrLe :=
  ⟨fun a b h1 h2 => by
    cases a; cases b
    exact congrArg String.mk (le_antisymm h1 h2)⟩

/-- The order in which display_imports iterates the aggregated
mapping: for mod in sorted(mods_to_display), i.e. the module keys in
lexicographic order. Python sorted() is modelled by insertion sort
with the lexicographic order on strings. -/
def display_imports_order (mods_to_display : Index) : List String :=
  List.insertionSort pyStrLe (mods_to_display.map Prod.fst)

/-- A notebook cell as the extraction loop in main reads it: the
cell_type tag and the source, a list of line strings. -/
structure Cell where
  cell_type : String
  source : List String
deriving DecidableEq

/-- The uncaught Python exceptions the embedded part of main can
raise: the IndexError from s[0] on an empty source line, and the
NameError from import_lister.visit(tree) when tree was never bound
because the very first parse raised SyntaxError. -/
inductive PyError where
  | indexError
  | nameError
deriving DecidableEq

/-- The list comprehension [s for s in cell.source if s[0] not in
("!", "%", "?")]: each line is kept unless its first character is a
bang, percent or question mark; taking s[0] of an empty line raises
IndexError. -/
def filterCellLines : List String → Except PyError (List String)
  | [] => Except.ok []
  | s :: rest =>
    match s.data with
    | [] => Except.error PyError.indexError
    | c :: _ =>
      match filterCellLines rest with
      | Except.error e => Except.error e
      | Except.ok kept =>
        if c = '!' ∨ c = '%' ∨ c = '?' then Except.ok kept
        else Except.ok (s :: kept)

/-- The test cell_src.startswith("%%") performed after the per-line
filtering, expressed on the character list of the string. -/
def startsWithTwoPercents (s : String) : Bool :=
  match s.data with
  | '%' :: '%' :: _ => true
  | _ => false

/-- The notebook branch of main: for every cell of type code, filter
its lines, join them, and unless the joined text starts with two
percent signs append it plus a newline to the accumulated contents. -/
def extractCells : List Cell → Except PyError String
  | [] => Except.ok ""
  | cell :: rest =>
    if cell.cell_type = "code" then
      match filterCellLines cell.source with
      | Except.error e => Except.error e
      | Except.ok kept =>
        let cell_src := String.join kept
        if startsWithTwoPercents cell_src then extractCells rest
        else
          match extractCells rest with
          | Except.error e => Except.error e
          | Except.ok tail => Except.ok (cell_src ++ "\n" ++ tail)
    else extractCells rest

/-- Whitespace in the sense of the regular expression class backslash-s
restricted to the ASCII range (space, tab, newline, carriage return,
vertical tab, form feed). -/
def isSpace (c : Char) : Bool :=
  c == ' ' || c == '\t' || c == '\n' || c == '\r' || c == '\x0b' || c == '\x0c'

/-- Greedy consumption of the bracket class excluding newline: skip
ahead to the next newline (kept) or to the end of the text. -/
def dropToNewline : List Char → List Char
  | [] => []
  | c :: rest => if c == '\n' then c :: rest else dropToNewline rest

/-- Attempt to match, right after a newline, whitespace then a percent
sign then an ASCII letter, as in the pattern used by the percent
substitution in main; on success return the remainder of the text
after the matched region (which extends to the end of the line).
Because a percent sign is not whitespace, the greedy whitespace star
with backtracking has exactly this deterministic behavior. -/
def matchSpacesPercent : List Char → Option (List Char)
  | [] => none
  | c :: rest =>
    if c == '%' then
      match rest with
      | [] => none
      | d :: rest2 => if d.isAlpha then some (dropToNewline rest2) else none
    else if isSpace c then matchSpacesPercent rest
    else none

/-- Attempt to match, right after a newline, whitespace then a bang,
as in the pattern used by the bang substitution in main; on success
return the remainder after the matched region. -/
def matchSpacesBang : List Char → Option (List Char)
  | [] => none
  | c :: rest =>
    if c == '!' then some (dropToNewline rest)
    else if isSpace c then matchSpacesBang rest
    else none

/-- One pass of re.sub for the percent pattern, with explicit fuel (a
bound on the number of characters still to be scanned); scanning
resumes at the newline that terminates a removed region, exactly as
re.sub resumes at the match end. -/
def subMagicGo : Nat → List Char → List Char
  | _, [] => []
  | 0, l => l
  | fuel + 1, c :: rest =>
    if c == '\n' then
      match matchSpacesPercent rest with
      | some r => subMagicGo fuel r
      | none => c :: subMagicGo fuel rest
    else c :: subMagicGo fuel rest

/-- One pass of re.sub for the bang pattern, with explicit fuel. -/
def subBangGo : Nat → List Char → List Char
  | _, [] => []
  | 0, l => l
  | fuel + 1, c :: rest =>
    if c == '\n' then
      match matchSpacesBang rest with
      | some r => subBangGo fuel r
      | none => c :: subBangGo fuel rest
    else c :: subBangGo fuel rest

/-- re.sub of the percent pattern over a whole text (the fuel equals
the text length, which suffices since every step strictly shrinks the
list being scanned). -/
def subMagicLines (l : List Char) : List Char := subMagicGo l.length l

/-- re.sub of the bang pattern over a whole text. -/
def subBangLines (l : List Char) : List Char := subBangGo l.length l

/-- The post-concatenation cleanup in main: first the percent
substitution, then the bang substitution. The two re.search guards in
the source only skip a substitution that would not change the text,
so they are semantically transparent. -/
def strip_special_lines (contents : String) : String :=
  { data := subBangLines (subMagicLines contents.data) }

/-- True when the text contains a newline followed by whitespace,
a percent sign and an ASCII letter, i.e. when the percent pattern has
a match somewhere in the text. -/
def hasMagic : List Char → Bool
  | [] => false
  | c :: rest => (c == '\n' && (matchSpacesPercent rest).isSome) || hasMagic rest

/-- True when the text contains a newline followed by whitespace and
a bang, i.e. when the bang pattern has a match somewhere. -/
def hasBang : List Char → Bool
  | [] => false
  | c :: rest => (c == '\n' && (matchSpacesBang rest).isSome) || hasBang rest

/-- An input file as the driver loop sees it: either a plain source
file whose contents are read directly, or a notebook whose cells go
through extractCells. The branch is chosen in the source by the file
extension. -/
inductive FileInput where
  | py : String → String → FileInput
  | ipynb : String → List Cell → FileInput

/-- The path of an input file. -/
def pathOf : FileInput → String
  | FileInput.py p _ => p
  | FileInput.ipynb p _ => p

/-- The state the driver loop threads between files: the local
variable tree of main, which survives from one iteration to the next
(none models the variable being still unbound), and the growing
dictionary of the shared ImportLister instance. -/
structure ScanState where
  tree : Option StmtList
  idx : Index

/-- One iteration of the file loop in main: extract the contents,
apply the two substitutions, then try ast.parse. A SyntaxError is
caught and logged, after which execution falls through to the call
of import_lister.visit(tree) outside the try block: tree holds the
previous value, and if no parse has succeeded yet the name is unbound
and a NameError propagates. The parser itself is the CPython
collaborator and enters as a parameter. -/
def processFile (parse : String → Option StmtList) (st : ScanState)
    (f : FileInput) : Except PyError ScanState :=
  match
    (match f with
     | FileInput.py _ text => Except.ok text
     | FileInput.ipynb _ cells => extractCells cells) with
  | Except.error e => Except.error e
  | Except.ok contents =>
    let contents2 := strip_special_lines contents
    match
      (match parse contents2 with
       | some t => some t
       | none => st.tree) with
    | none => Except.error PyError.nameError
    | some tree => Except.ok ⟨some tree, visit_body (pathOf f) st.idx tree⟩

/-- The file loop of main, threading the scan state. -/
def scanGo (parse : String → Option StmtList) (st : ScanState) :
    List FileInput → Except PyError ScanState
  | [] => Except.ok st
  | f :: rest =>
    match processFile parse st f with
    | Except.error e => Except.error e
    | Except.ok st2 => scanGo parse st2 rest

/-- The whole scan of main up to the imports dictionary: process every
file in order starting from an unbound tree and an empty index. -/
def scan (parse : String → Option StmtList) (files : List FileInput) :
    Except PyError Index :=
  match scanGo parse ⟨none, []⟩ files with
  | Except.error e => Except.error e
  | Except.ok st => Except.ok st.idx

/-- Finite lookup table used to instantiate the parser parameter on
concrete scenario sources. -/
def parse_table : List (String × StmtList) → String → Option StmtList
  | [], _ => none
  | (k, t) :: rest, s => if s = k then some t else parse_table rest s

/-- The behavior of ast.parse on the concrete sources appearing in the
scenarios below: the text consisting of the line import os parses to
a single Import node at line 1, column 0, and the two-line text with
the imports of unused_in_other_lang and math parses to two Import
nodes at lines 1 and 2, both at column 0. Every other string is
treated as raising SyntaxError, which matches the scenario sources
with invalid syntax. -/
def scenario_parse : String → Option StmtList :=
  parse_table
    [ ("import os\n", StmtList.cons (Stmt.imp ["os"] 1 0) StmtList.nil),
      ("import unused_in_other_lang\nimport math\n",
        StmtList.cons (Stmt.imp ["unused_in_other_lang"] 1 0)
          (StmtList.cons (Stmt.imp ["math"] 2 0) StmtList.nil)) ]

/-! Helper lemmas about dictionary lookup and the aggregator. -/

theorem lookupMod_cons_self (k : String) (v : List Occ) (rest : Index) :
    lookupMod ((k, v) :: rest) k = some v := by
  simp [lookupMod]

theorem lookupMod_cons_ne {k mod : String} (v : List Occ) (rest : Index)
    (h : k ≠ mod) : lookupMod ((k, v) :: rest) mod = lookupMod rest mod := by
  simp [lookupMod, h]

theorem lookupMod_mem : ∀ {imports : Index} {mod : String} {md : List Occ},
    lookupMod imports mod = some md → (mod, md) ∈ imports := by
  intro imports
  induction imports with
  | nil => intro mod md h; simp [lookupMod] at h
  | cons p rest ih =>
    intro mod md h
    obtain ⟨k, v⟩ := p
    by_cases hk : k = mod
    · subst hk
      rw [lookupMod_cons_self] at h
      cases h
      exact List.mem_cons_self _ _
    · rw [lookupMod_cons_ne v rest hk] at h
      exact List.mem_cons_of_mem _ (ih h)

theorem collect_cons_excluded {installable_modules : List String}
    {exclude_installable : Bool} {k : String} {md : List Occ} (rest : Index)
    (h : exclude_installable ∧ k ∈ installable_modules) :
    collect_non_builtins installable_modules exclude_installable ((k, md) :: rest)
      = collect_non_builtins installable_modules exclude_installable rest := by
  simp [collect_non_builtins, h]

theorem collect_cons_required {installable_modules : List String}
    {exclude_installable : Bool} {k : String} {md : List Occ} (rest : Index)
    (h : ¬ (exclude_installable ∧ k ∈ installable_modules))
    (hreq : md.any (fun meta => meta.col_offset == 0) = true) :
    collect_non_builtins installable_modules exclude_installable ((k, md) :: rest)
      = (k, []) :: collect_non_builtins installable_modules exclude_installable rest := by
  simp [collect_non_builtins, h, hreq]

theorem collect_cons_optional {installable_modules : List String}
    {exclude_installable : Bool} {k : String} {md : List Occ} (rest : Index)
    (h : ¬ (exclude_installable ∧ k ∈ installable_modules))
    (hreq : md.any (fun meta => meta.col_offset == 0) = false) :
    collect_non_builtins installable_modules exclude_installable ((k, md) :: rest)
      = (k, md.filter (fun meta => decide (0 < meta.col_offset))) ::
          collect_non_builtins installable_modules exclude_installable rest := by
  simp [collect_non_builtins, h, hreq]

/-- Lookup of a module in the aggregated report, characterized by its
entry in the imports dictionary: absent modules stay absent, excluded
modules disappear, required modules map to empty evidence and the
rest keep their positive-column occurrences. -/
theorem lookupMod_collect (installable_modules : List String)
    (exclude_installable : Bool) :
    ∀ (imports : Index) (mod : String),
    lookupMod (collect_non_builtins installable_modules exclude_installable imports) mod
      = match lookupMod imports mod with
        | none => none
        | some metadata =>
          if exclude_installable ∧ mod ∈ installable_modules then none
          else if metadata.any (fun meta => meta.col_offset == 0) then some []
          else some (metadata.filter (fun meta => decide (0 < meta.col_offset))) := by
  intro imports
  induction imports with
  | nil => intro mod; rfl
  | cons p rest ih =>
    intro mod
    obtain ⟨k, md⟩ := p
    by_cases hex : exclude_installable ∧ k ∈ installable_modules
    · rw [collect_cons_excluded rest hex, ih]
      by_cases hk : k = mod
      · subst hk
        rw [lookupMod_cons_self]
        cases hr : lookupMod rest k with
        | none => simp [hex]
        | some md2 => simp [hex]
      · rw [lookupMod_cons_ne md rest hk]
    · by_cases hreq : md.any (fun meta => meta.col_offset == 0) = true
      · rw [collect_cons_required rest hex hreq]
        by_cases hk : k = mod
        · subst hk
          rw [lookupMod_cons_self, lookupMod_cons_self]
          simp [hex, hreq]
        · rw [lookupMod_cons_ne _ _ hk, lookupMod_cons_ne md rest hk, ih]
      · rw [collect_cons_optional rest hex (Bool.eq_false_iff.mpr hreq)]
        by_cases hk : k = mod
        · subst hk
          rw [lookupMod_cons_self, lookupMod_cons_self]
          simp [hex, hreq]
        · rw [lookupMod_cons_ne _ _ hk, lookupMod_cons_ne md rest hk, ih]

/-- Leading-segment extraction on an explicitly dotted character list:
with no period in the first segment, everything from the first period
on is discarded. -/
theorem takeUntilDot_append {a : List Char} (rest : List Char)
    (h : '.' ∉ a) : takeUntilDot (a ++ '.' :: rest) = a := by
  induction a with
  | nil => simp [takeUntilDot]
  | cons x xs ih =>
    have hx : x ≠ '.' := fun hx => h (hx ▸ List.mem_cons_self x xs)
    simp only [List.cons_append, takeUntilDot, if_neg hx, List.append_eq]
    rw [ih (fun hm => h (List.mem_cons_of_mem x hm))]

/-- truncate_module on a dotted name returns exactly the part before
the first period. -/
theorem truncate_module_dotted {a : List Char} (rest : List Char)
    (h : '.' ∉ a) :
    truncate_module { data := a ++ '.' :: rest } = { data := a } := by
  have hmem : '.' ∈ (String.mk (a ++ '.' :: rest)).data :=
    List.mem_append_right a (List.mem_cons_self '.' rest)
  simp only [truncate_module, if_pos hmem]
  exact congrArg String.mk (takeUntilDot_append rest h)

/-! The claim theorems. -/

/-- C1: the claim says a per-file parse failure contributes zero
records and never aborts the scan. The code instead calls the method
of import_lister, visit(tree), outside the try block: when the very first
file fails to parse, tree is unbound and the scan aborts with a
NameError, and when a later file fails, the previous file's tree is
visited again, so its imports are recorded a second time under the
failing file's path. This theorem evaluates the embedded driver loop
on both corpora. -/
theorem C1_parse_failure_behavior :
    scan scenario_parse [FileInput.py "bad.py" "import (\n"]
      = Except.error PyError.nameError ∧
    scan scenario_parse
        [FileInput.py "a.py" "import os\n", FileInput.py "b.py" "import (\n"]
      = Except.ok [("os", [⟨"a.py", 1, 0⟩, ⟨"b.py", 1, 0⟩])] :=
  ⟨rfl, rfl⟩

/-- C2: for every aggregated module with a non-empty occurrence list,
the report entry is the empty evidence collection (required) exactly
when some occurrence of the module sits at column offset zero;
otherwise the entry is non-empty (optional). -/
theorem C2_required_iff_zero_column
    (imports : Index) (installable_modules : List String)
    (exclude_installable : Bool) (mod : String) (metadata val : List Occ)
    (h1 : lookupMod imports mod = some metadata) (h2 : metadata ≠ [])
    (h3 : lookupMod (collect_non_builtins installable_modules exclude_installable imports) mod
            = some val) :
    val = [] ↔ ∃ meta ∈ metadata, meta.col_offset = 0 := by
  rw [lookupMod_collect, h1] at h3
  dsimp only at h3
  by_cases hex : exclude_installable ∧ mod ∈ installable_modules
  · simp [hex] at h3
  · rw [if_neg hex] at h3
    by_cases hreq : metadata.any (fun meta => meta.col_offset == 0) = true
    · rw [if_pos hreq] at h3
      cases h3
      have hex2 : ∃ meta ∈ metadata, meta.col_offset = 0 := by
        simpa using hreq
      exact iff_of_true rfl hex2
    · rw [if_neg hreq] at h3
      cases h3
      have hall : ∀ meta ∈ metadata, meta.col_offset ≠ 0 := by
        intro meta hm
        by_contra hz
        exact hreq (by simp [List.any_eq_true]; exact ⟨meta, hm, by simpa using hz⟩)
      have hfil : metadata.filter (fun meta => decide (0 < meta.col_offset)) = metadata :=
        List.filter_eq_self.mpr
          (fun meta hm => by simpa using Nat.pos_of_ne_zero (hall meta hm))
      rw [hfil]
      constructor
      · intro hv; exact absurd hv h2
      · rintro ⟨meta, hm, hz⟩; exact absurd hz (hall meta hm)

/-- C2 witness: a single optional occurrence at column 4 gives a
non-empty entry and no zero-column occurrence exists. -/
theorem C2_required_iff_zero_column_witness :
    [Occ.mk "f.py" 2 4] = ([] : List Occ)
      ↔ ∃ meta ∈ [Occ.mk "f.py" 2 4], meta.col_offset = 0 :=
  C2_required_iff_zero_column [("ujson", [Occ.mk "f.py" 2 4])] [] false
    "ujson" [Occ.mk "f.py" 2 4] [Occ.mk "f.py" 2 4] rfl (by decide) rfl

/-- C3: the claim says a code cell whose first line begins with two
percent signs is excluded entirely. In the code the per-line filter
drops the percent-prefixed first line before the startswith check
runs, so the check never fires and the remaining lines of the cell
are included: scenario C yields a report that does contain
unused_in_other_lang (as a required module), contradicting the
claimed report with math alone. -/
theorem C3_cell_magic_not_excluded :
    scan scenario_parse
        [FileInput.ipynb "nb.ipynb"
          [⟨"code", ["%%bash\n", "import unused_in_other_lang"]⟩,
           ⟨"code", ["import math"]⟩]]
      = Except.ok
          [("unused_in_other_lang", [⟨"nb.ipynb", 1, 0⟩]),
           ("math", [⟨"nb.ipynb", 2, 0⟩])] ∧
    lookupMod
        (collect_non_builtins [] false
          [("unused_in_other_lang", [⟨"nb.ipynb", 1, 0⟩]),
           ("math", [⟨"nb.ipynb", 2, 0⟩])])
        "unused_in_other_lang"
      = some [] :=
  ⟨rfl, rfl⟩

/-- C4: a from-import with nonzero relative level records nothing, and
a source consisting only of from . import helper produces an empty
report. -/
theorem C4_relative_import_excluded :
    (∀ (filepath : String) (module : Option String) (level lineno col : Nat)
        (idx : Index), level ≠ 0 →
        visit_stmt filepath idx (Stmt.impFrom module level lineno col) = idx) ∧
    collect_non_builtins [] false
        (visit_body "f.py" [] (StmtList.cons (Stmt.impFrom none 1 1 0) StmtList.nil))
      = [] := by
  constructor
  · intro filepath module level lineno col idx h
    simp [visit_stmt, h]
  · rfl

/-- C4 witness: a deeply relative from-import at level 2 leaves the
index unchanged. -/
theorem C4_relative_import_excluded_witness :
    visit_stmt "g.py" [] (Stmt.impFrom (some "pkg") 2 3 1) = [] :=
  C4_relative_import_excluded.1 "g.py" (some "pkg") 2 3 1 [] (by decide)

/-- C5: for a dotted import target whose first segment contains no
period, the module recorded in the index is exactly that leading
segment, for plain imports and for from-imports alike. -/
theorem C5_dotted_name_truncation
    (a rest : List Char) (filepath : String) (lineno col : Nat) (idx : Index)
    (h : '.' ∉ a) :
    visit_stmt filepath idx (Stmt.imp [{ data := a ++ '.' :: rest }] lineno col)
        = indexAppend idx { data := a } ⟨filepath, lineno, col⟩ ∧
    visit_stmt filepath idx
        (Stmt.impFrom (some { data := a ++ '.' :: rest }) 0 lineno col)
        = indexAppend idx { data := a } ⟨filepath, lineno, col⟩ := by
  constructor
  · show indexAppend idx (truncate_module { data := a ++ '.' :: rest })
        ⟨filepath, lineno, col⟩ = _
    rw [truncate_module_dotted rest h]
  · show indexAppend idx (truncate_module { data := a ++ '.' :: rest })
        ⟨filepath, lineno, col⟩ = _
    rw [truncate_module_dotted rest h]

/-- C5 witness: importing pkg.sub.mod records the module pkg. -/
theorem C5_dotted_name_truncation_witness :
    visit_stmt "f.py" []
        (Stmt.imp [{ data := ['p', 'k', 'g'] ++ '.' :: ("sub.mod").data }] 1 0)
      = indexAppend [] { data := ['p', 'k', 'g'] } ⟨"f.py", 1, 0⟩ :=
  (C5_dotted_name_truncation ['p', 'k', 'g'] ("sub.mod").data "f.py" 1 0 []
    (by decide)).1

/-- C7: with exclusion on, every catalog module is absent from the
report whatever its classification; with exclusion off, every
aggregated module is retained; and on the concrete scenario with
catalog os, the source import os yields the empty report when the
flag is true and the single required entry os when it is false. -/
theorem C7_catalog_exclusion :
    (∀ (imports : Index) (installable_modules : List String) (mod : String),
        mod ∈ installable_modules →
        lookupMod (collect_non_builtins installable_modules true imports) mod = none) ∧
    (∀ (imports : Index) (installable_modules : List String) (mod : String)
        (md : List Occ), lookupMod imports mod = some md →
        (lookupMod (collect_non_builtins installable_modules false imports) mod).isSome
          = true) ∧
    collect_non_builtins ["os"] true [("os", [⟨"f.py", 1, 0⟩])] = [] ∧
    collect_non_builtins ["os"] false [("os", [⟨"f.py", 1, 0⟩])] = [("os", [])] := by
  refine ⟨?_, ?_, rfl, rfl⟩
  · intro imports installable_modules mod hmem
    rw [lookupMod_collect]
    cases h : lookupMod imports mod with
    | none => rfl
    | some md => simp [hmem]
  · intro imports installable_modules mod md h
    rw [lookupMod_collect, h]
    by_cases hreq : md.any (fun meta => meta.col_offset == 0) = true
    · simp [hreq]
    · simp [hreq]

/-- C7 witness: with exclusion on, the catalog module numpy is dropped
from the report. -/
theorem C7_catalog_exclusion_witness :
    lookupMod (collect_non_builtins ["numpy"] true [("numpy", [⟨"f.py", 3, 4⟩])])
        "numpy" = none :=
  C7_catalog_exclusion.1 [("numpy", [⟨"f.py", 3, 4⟩])] ["numpy"] "numpy"
    (by decide)

/-- C9: in a report built from an index whose entries are non-empty
(as the walker guarantees), every entry is either empty evidence for
a module with a zero-column occurrence, or a non-empty list of
occurrences all at positive column offset; no entry mixes the two
shapes. -/
theorem C9_report_entry_shapes
    (imports : Index) (installable_modules : List String)
    (exclude_installable : Bool)
    (hne : ∀ p ∈ imports, p.2 ≠ ([] : List Occ)) (mod : String) (val : List Occ)
    (h : lookupMod (collect_non_builtins installable_modules exclude_installable imports) mod
           = some val) :
    (val = [] ∧ ∃ md, lookupMod imports mod = some md ∧ ∃ meta ∈ md, meta.col_offset = 0) ∨
    (val ≠ [] ∧ ∀ meta ∈ val, 0 < meta.col_offset) := by
  rw [lookupMod_collect] at h
  cases h1 : lookupMod imports mod with
  | none => rw [h1] at h; exact absurd h (by simp)
  | some metadata =>
    rw [h1] at h
    dsimp only at h
    by_cases hex : exclude_installable ∧ mod ∈ installable_modules
    · simp [hex] at h
    · rw [if_neg hex] at h
      by_cases hreq : metadata.any (fun meta => meta.col_offset == 0) = true
      · rw [if_pos hreq] at h
        cases h
        exact Or.inl ⟨rfl, metadata, rfl, by simpa using hreq⟩
      · rw [if_neg hreq] at h
        cases h
        have hall : ∀ meta ∈ metadata, meta.col_offset ≠ 0 := by
          intro meta hm
          by_contra hz
          exact hreq (by simp [List.any_eq_true]; exact ⟨meta, hm, by simpa using hz⟩)
        have hfil : metadata.filter (fun meta => decide (0 < meta.col_offset)) = metadata :=
          List.filter_eq_self.mpr
            (fun meta hm => by simpa using Nat.pos_of_ne_zero (hall meta hm))
        rw [hfil]
        refine Or.inr ⟨hne (mod, metadata) (lookupMod_mem h1), ?_⟩
        intro meta hm
        exact Nat.pos_of_ne_zero (hall meta hm)

/-- C9 witness: a two-module index with one required and one optional
module; the optional entry is non-empty with only positive columns. -/
theorem C9_report_entry_shapes_witness :
    ([Occ.mk "f.py" 2 4] = ([] : List Occ) ∧
      ∃ md, lookupMod [("a", [Occ.mk "f.py" 1 0]), ("b", [Occ.mk "f.py" 2 4])] "b"
              = some md ∧ ∃ meta ∈ md, meta.col_offset = 0) ∨
    ([Occ.mk "f.py" 2 4] ≠ ([] : List Occ) ∧
      ∀ meta ∈ [Occ.mk "f.py" 2 4], 0 < meta.col_offset) :=
  C9_report_entry_shapes [("a", [Occ.mk "f.py" 1 0]), ("b", [Occ.mk "f.py" 2 4])]
    [] false (by decide) "b" [Occ.mk "f.py" 2 4] rfl

/-- With the exclusion flag off, the aggregator emits the modules in
exactly the insertion order of the imports dictionary. -/
theorem collect_keys_false (installable_modules : List String) :
    ∀ imports : Index,
    (collect_non_builtins installable_modules false imports).map Prod.fst
      = imports.map Prod.fst := by
  intro imports
  induction imports with
  | nil => rfl
  | cons p rest ih =>
    obtain ⟨k, md⟩ := p
    have hex : ¬ ((false : Bool) ∧ k ∈ installable_modules) := by simp
    by_cases hreq : md.any (fun meta => meta.col_offset == 0) = true
    · rw [collect_cons_required rest hex hreq]
      simp [ih]
    · rw [collect_cons_optional rest hex (Bool.eq_false_iff.mpr hreq)]
      simp [ih]

/-- C6 counterexample: the mapping returned by collect_non_builtins
iterates its keys in insertion order, not sorted order: inserting b
before a leaves the keys in the order b, a, which is not sorted. -/
theorem C6_aggregator_iterates_insertion_order :
    (collect_non_builtins [] false
        [("b", [⟨"f.py", 1, 0⟩]), ("a", [⟨"g.py", 1, 0⟩])]).map Prod.fst
      = ["b", "a"] ∧
    ¬ List.Sorted pyStrLe ["b", "a"] :=
  ⟨rfl, by decide⟩

/-- C6 amended: the aggregated mapping keeps the insertion order of
the index (exclusion off), and it is the Reporter, display_imports,
that iterates the module keys through sorted(): its iteration order
is lexicographically sorted and depends only on the key multiset, not
on the insertion order of the index. -/
theorem C6_reporter_sorted_order :
    (∀ (installable_modules : List String) (imports : Index),
        (collect_non_builtins installable_modules false imports).map Prod.fst
          = imports.map Prod.fst) ∧
    (∀ mods_to_display : Index,
        List.Sorted pyStrLe (display_imports_order mods_to_display)) ∧
    (∀ mods_to_display mods2 : Index,
        (mods_to_display.map Prod.fst).Perm (mods2.map Prod.fst) →
        display_imports_order mods_to_display = display_imports_order mods2) := by
  refine ⟨collect_keys_false, ?_, ?_⟩
  · intro mods_to_display
    exact List.sorted_insertionSort pyStrLe _
  · intro mods_to_display mods2 h
    exact List.eq_of_perm_of_sorted
      (((List.perm_insertionSort pyStrLe _).trans h).trans
        (List.perm_insertionSort pyStrLe _).symm)
      (List.sorted_insertionSort pyStrLe _)
      (List.sorted_insertionSort pyStrLe _)

/-- C6 witness: two reports holding the same modules in opposite
insertion orders are rendered in the same (sorted) order. -/
theorem C6_reporter_sorted_order_witness :
    display_imports_order [("b", []), ("a", [])]
      = display_imports_order [("a", []), ("b", [])] :=
  C6_reporter_sorted_order.2.2 [("b", []), ("a", [])] [("a", []), ("b", [])]
    (by decide)

/-- The per-line filter only ever fails with the IndexError raised by
s[0] on an empty line. -/
theorem filterCellLines_error_eq : ∀ {src : List String} {e : PyError},
    filterCellLines src = Except.error e → e = PyError.indexError := by
  intro src
  induction src with
  | nil => intro e h; simp [filterCellLines] at h
  | cons s rest ih =>
    intro e h
    cases hd : s.data with
    | nil =>
      simp only [filterCellLines, hd] at h
      cases h
      rfl
    | cons c cs =>
      simp only [filterCellLines, hd] at h
      cases hfl : filterCellLines rest with
      | error e2 =>
        rw [hfl] at h
        cases h
        exact ih hfl
      | ok kept =>
        rw [hfl] at h
        dsimp only at h
        split at h <;> cases h

/-- A code cell containing an empty source line makes the per-line
filter raise IndexError. -/
theorem filterCellLines_empty_line : ∀ {src : List String},
    "" ∈ src → filterCellLines src = Except.error PyError.indexError := by
  intro src h
  induction src with
  | nil => cases h
  | cons s rest ih =>
    cases hd : s.data with
    | nil => simp [filterCellLines, hd]
    | cons c cs =>
      have hrest : "" ∈ rest := by
        rcases List.mem_cons.mp h with he | he
        · rw [← he] at hd
          simp at hd
        · exact he
      simp only [filterCellLines, hd]
      rw [ih hrest]

/-- A notebook containing a code cell with an empty source line makes
the extraction fail with IndexError. -/
theorem extractCells_empty_line : ∀ {cells : List Cell},
    (∃ c ∈ cells, c.cell_type = "code" ∧ "" ∈ c.source) →
    extractCells cells = Except.error PyError.indexError := by
  intro cells h
  induction cells with
  | nil =>
    rcases h with ⟨c, hc, _⟩
    cases hc
  | cons cell rest ih =>
    rcases h with ⟨c, hc, htype, hsrc⟩
    rcases List.mem_cons.mp hc with he | he
    · subst he
      simp only [extractCells, if_pos htype]
      rw [filterCellLines_empty_line hsrc]
    · by_cases htype2 : cell.cell_type = "code"
      · cases hfl : filterCellLines cell.source with
        | error e2 =>
          have he2 := filterCellLines_error_eq hfl
          subst he2
          simp only [extractCells, if_pos htype2, hfl]
        | ok kept =>
          have hrest := ih ⟨c, he, htype, hsrc⟩
          simp only [extractCells, if_pos htype2, hfl]
          by_cases hpp : startsWithTwoPercents (String.join kept) = true
          · rw [if_pos hpp]
            exact hrest
          · rw [if_neg (by simpa using hpp)]
            rw [hrest]
      · simp only [extractCells, if_neg htype2]
        exact ih ⟨c, he, htype, hsrc⟩

/-- C10: a notebook document with a code cell whose source contains an
empty string line makes the extraction raise an uncaught IndexError
(from taking the first character of the line), so the per-file step,
and with it a scan of that notebook, aborts instead of producing
extracted source. -/
theorem C10_empty_line_index_error (cells : List Cell)
    (h : ∃ c ∈ cells, c.cell_type = "code" ∧ "" ∈ c.source) :
    extractCells cells = Except.error PyError.indexError ∧
    ∀ (parse : String → Option StmtList) (path : String) (st : ScanState),
      processFile parse st (FileInput.ipynb path cells)
          = Except.error PyError.indexError ∧
      scan parse [FileInput.ipynb path cells]
          = Except.error PyError.indexError := by
  have hex := extractCells_empty_line h
  refine ⟨hex, ?_⟩
  intro parse path st
  have hpf : ∀ st2 : ScanState, processFile parse st2 (FileInput.ipynb path cells)
      = Except.error PyError.indexError := by
    intro st2
    simp only [processFile]
    rw [hex]
  refine ⟨hpf st, ?_⟩
  simp only [scan, scanGo]
  rw [hpf ⟨none, []⟩]

/-- C10 witness: a one-cell notebook whose code cell has a line that
reads import os plus the empty string line aborts with IndexError. -/
theorem C10_empty_line_index_error_witness :
    extractCells [⟨"code", ["import os\n", ""]⟩]
        = Except.error PyError.indexError ∧
    processFile scenario_parse ⟨none, []⟩
        (FileInput.ipynb "nb.ipynb" [⟨"code", ["import os\n", ""]⟩])
        = Except.error PyError.indexError ∧
    scan scenario_parse [FileInput.ipynb "nb.ipynb" [⟨"code", ["import os\n", ""]⟩]]
        = Except.error PyError.indexError := by
  have h := C10_empty_line_index_error [⟨"code", ["import os\n", ""]⟩]
    ⟨⟨"code", ["import os\n", ""]⟩, List.mem_cons_self _ _, rfl, by decide⟩
  exact ⟨h.1, (h.2 scenario_parse "nb.ipynb" ⟨none, []⟩).1,
    (h.2 scenario_parse "nb.ipynb" ⟨none, []⟩).2⟩

/-! Lemmas about the two re.sub passes. -/

theorem subMagicGo_nil (fuel : Nat) : subMagicGo fuel [] = [] := by
  cases fuel <;> rfl

theorem subMagicGo_zero (l : List Char) : subMagicGo 0 l = l := by
  cases l <;> rfl

theorem subMagicGo_cons_newline_some {rest r : List Char} (fuel : Nat)
    (hm : matchSpacesPercent rest = some r) :
    subMagicGo (fuel + 1) ('\n' :: rest) = subMagicGo fuel r := by
  simp [subMagicGo, hm]

theorem subMagicGo_cons_newline_none {rest : List Char} (fuel : Nat)
    (hm : matchSpacesPercent rest = none) :
    subMagicGo (fuel + 1) ('\n' :: rest) = '\n' :: subMagicGo fuel rest := by
  simp [subMagicGo, hm]

theorem subMagicGo_cons_other {c : Char} (fuel : Nat) (rest : List Char)
    (hc : (c == '\n') = false) :
    subMagicGo (fuel + 1) (c :: rest) = c :: subMagicGo fuel rest := by
  simp [subMagicGo, hc]

theorem subBangGo_nil (fuel : Nat) : subBangGo fuel [] = [] := by
  cases fuel <;> rfl

theorem subBangGo_zero (l : List Char) : subBangGo 0 l = l := by
  cases l <;> rfl

theorem subBangGo_cons_newline_some {rest r : List Char} (fuel : Nat)
    (hm : matchSpacesBang rest = some r) :
    subBangGo (fuel + 1) ('\n' :: rest) = subBangGo fuel r := by
  simp [subBangGo, hm]

theorem subBangGo_cons_newline_none {rest : List Char} (fuel : Nat)
    (hm : matchSpacesBang rest = none) :
    subBangGo (fuel + 1) ('\n' :: rest) = '\n' :: subBangGo fuel rest := by
  simp [subBangGo, hm]

theorem subBangGo_cons_other {c : Char} (fuel : Nat) (rest : List Char)
    (hc : (c == '\n') = false) :
    subBangGo (fuel + 1) (c :: rest) = c :: subBangGo fuel rest := by
  simp [subBangGo, hc]

theorem isSpace_cases {c : Char} (hs : isSpace c = true) :
    c = ' ' ∨ c = '\t' ∨ c = '\n' ∨ c = '\r' ∨ c = '\x0b' ∨ c = '\x0c' := by
  simp only [isSpace, Bool.or_eq_true, beq_iff_eq] at hs
  tauto

theorem matchSpacesPercent_space {c : Char} (rest : List Char)
    (hs : isSpace c = true) :
    matchSpacesPercent (c :: rest) = matchSpacesPercent rest := by
  rcases isSpace_cases hs with h | h | h | h | h | h <;> subst h <;> rfl

theorem matchSpacesPercent_other {c : Char} (rest : List Char)
    (hp : (c == '%') = false) (hs : isSpace c = false) :
    matchSpacesPercent (c :: rest) = none := by
  simp [matchSpacesPercent, hp, hs]

theorem matchSpacesBang_space {c : Char} (rest : List Char)
    (hs : isSpace c = true) :
    matchSpacesBang (c :: rest) = matchSpacesBang rest := by
  rcases isSpace_cases hs with h | h | h | h | h | h <;> subst h <;> rfl

theorem matchSpacesBang_other {c : Char} (rest : List Char)
    (hb : (c == '!') = false) (hs : isSpace c = false) :
    matchSpacesBang (c :: rest) = none := by
  simp [matchSpacesBang, hb, hs]

theorem dropToNewline_suffix : ∀ l : List Char, dropToNewline l <:+ l := by
  intro l
  induction l with
  | nil => exact List.suffix_refl _
  | cons c rest ih =>
    simp only [dropToNewline]
    split
    · exact List.suffix_refl _
    · exact ih.trans (List.suffix_cons c rest)

theorem dropToNewline_shape :
    ∀ l : List Char, dropToNewline l = [] ∨ ∃ t, dropToNewline l = '\n' :: t := by
  intro l
  induction l with
  | nil => exact Or.inl rfl
  | cons c rest ih =>
    simp only [dropToNewline]
    split
    · next hc =>
      right
      exact ⟨rest, by rw [show c = '\n' from by simpa using hc]⟩
    · exact ih

theorem matchSpacesPercent_suffix : ∀ {l r : List Char},
    matchSpacesPercent l = some r → r <:+ l := by
  intro l
  induction l with
  | nil => intro r h; simp [matchSpacesPercent] at h
  | cons c rest ih =>
    intro r h
    by_cases hp : (c == '%') = true
    · simp only [matchSpacesPercent, hp, if_true] at h
      cases rest with
      | nil => simp at h
      | cons d rest2 =>
        dsimp only at h
        split at h
        · cases h
          exact (dropToNewline_suffix rest2).trans
            ((List.suffix_cons d rest2).trans (List.suffix_cons c (d :: rest2)))
        · cases h
    · by_cases hs : isSpace c = true
      · rw [matchSpacesPercent_space rest hs] at h
        exact (ih h).trans (List.suffix_cons c rest)
      · rw [matchSpacesPercent_other rest (Bool.eq_false_iff.mpr hp)
          (Bool.eq_false_iff.mpr hs)] at h
        cases h

theorem matchSpacesPercent_shape : ∀ {l r : List Char},
    matchSpacesPercent l = some r → r = [] ∨ ∃ t, r = '\n' :: t := by
  intro l
  induction l with
  | nil => intro r h; simp [matchSpacesPercent] at h
  | cons c rest ih =>
    intro r h
    by_cases hp : (c == '%') = true
    · simp only [matchSpacesPercent, hp, if_true] at h
      cases rest with
      | nil => simp at h
      | cons d rest2 =>
        dsimp only at h
        split at h
        · cases h
          exact dropToNewline_shape rest2
        · cases h
    · by_cases hs : isSpace c = true
      · rw [matchSpacesPercent_space rest hs] at h
        exact ih h
      · rw [matchSpacesPercent_other rest (Bool.eq_false_iff.mpr hp)
          (Bool.eq_false_iff.mpr hs)] at h
        cases h

theorem matchSpacesBang_suffix : ∀ {l r : List Char},
    matchSpacesBang l = some r → r <:+ l := by
  intro l
  induction l with
  | nil => intro r h; simp [matchSpacesBang] at h
  | cons c rest ih =>
    intro r h
    by_cases hb : (c == '!') = true
    · simp only [matchSpacesBang, hb, if_true] at h
      cases h
      exact (dropToNewline_suffix rest).trans (List.suffix_cons c rest)
    · by_cases hs : isSpace c = true
      · rw [matchSpacesBang_space rest hs] at h
        exact (ih h).trans (List.suffix_cons c rest)
      · rw [matchSpacesBang_other rest (Bool.eq_false_iff.mpr hb)
          (Bool.eq_false_iff.mpr hs)] at h
        cases h

theorem matchSpacesBang_shape : ∀ {l r : List Char},
    matchSpacesBang l = some r → r = [] ∨ ∃ t, r = '\n' :: t := by
  intro l
  induction l with
  | nil => intro r h; simp [matchSpacesBang] at h
  | cons c rest ih =>
    intro r h
    by_cases hb : (c == '!') = true
    · simp only [matchSpacesBang, hb, if_true] at h
      cases h
      exact dropToNewline_shape rest
    · by_cases hs : isSpace c = true
      · rw [matchSpacesBang_space rest hs] at h
        exact ih h
      · rw [matchSpacesBang_other rest (Bool.eq_false_iff.mpr hb)
          (Bool.eq_false_iff.mpr hs)] at h
        cases h

theorem subMagicGo_head : ∀ (fuel : Nat) (l : List Char),
    (subMagicGo fuel l).head? = none ∨ (subMagicGo fuel l).head? = l.head? ∨
    (subMagicGo fuel l).head? = some '\n' := by
  intro fuel
  induction fuel with
  | zero => intro l; rw [subMagicGo_zero]; exact Or.inr (Or.inl rfl)
  | succ fuel ih =>
    intro l
    cases l with
    | nil => rw [subMagicGo_nil]; exact Or.inl rfl
    | cons c rest =>
      by_cases hc : (c == '\n') = true
      · have hceq : c = '\n' := by simpa using hc
        subst hceq
        cases hm : matchSpacesPercent rest with
        | none =>
          rw [subMagicGo_cons_newline_none fuel hm]
          exact Or.inr (Or.inl rfl)
        | some r =>
          rw [subMagicGo_cons_newline_some fuel hm]
          rcases matchSpacesPercent_shape hm with hr | ⟨t, ht⟩
          · subst hr; rw [subMagicGo_nil]; exact Or.inl rfl
          · subst ht
            rcases ih ('\n' :: t) with h | h | h
            · exact Or.inl h
            · exact Or.inr (Or.inr h)
            · exact Or.inr (Or.inr h)
      · rw [subMagicGo_cons_other fuel rest (Bool.eq_false_iff.mpr hc)]
        exact Or.inr (Or.inl rfl)

theorem subBangGo_head : ∀ (fuel : Nat) (l : List Char),
    (subBangGo fuel l).head? = none ∨ (subBangGo fuel l).head? = l.head? ∨
    (subBangGo fuel l).head? = some '\n' := by
  intro fuel
  induction fuel with
  | zero => intro l; rw [subBangGo_zero]; exact Or.inr (Or.inl rfl)
  | succ fuel ih =>
    intro l
    cases l with
    | nil => rw [subBangGo_nil]; exact Or.inl rfl
    | cons c rest =>
      by_cases hc : (c == '\n') = true
      · have hceq : c = '\n' := by simpa using hc
        subst hceq
        cases hm : matchSpacesBang rest with
        | none =>
          rw [subBangGo_cons_newline_none fuel hm]
          exact Or.inr (Or.inl rfl)
        | some r =>
          rw [subBangGo_cons_newline_some fuel hm]
          rcases matchSpacesBang_shape hm with hr | ⟨t, ht⟩
          · subst hr; rw [subBangGo_nil]; exact Or.inl rfl
          · subst ht
            rcases ih ('\n' :: t) with h | h | h
            · exact Or.inl h
            · exact Or.inr (Or.inr h)
            · exact Or.inr (Or.inr h)
      · rw [subBangGo_cons_other fuel rest (Bool.eq_false_iff.mpr hc)]
        exact Or.inr (Or.inl rfl)

/-- The percent substitution leaves no text on which the percent
pattern could still match at the current position. -/
theorem matchSpacesPercent_subMagicGo : ∀ (fuel : Nat) (l : List Char),
    matchSpacesPercent l = none →
    matchSpacesPercent (subMagicGo fuel l) = none := by
  intro fuel
  induction fuel with
  | zero => intro l h; rwa [subMagicGo_zero]
  | succ fuel ih =>
    intro l h
    cases l with
    | nil => rwa [subMagicGo_nil]
    | cons c rest =>
      by_cases hc : (c == '\n') = true
      · have hceq : c = '\n' := by simpa using hc
        subst hceq
        have hrest : matchSpacesPercent rest = none := by
          rwa [matchSpacesPercent_space rest (by rfl)] at h
        rw [subMagicGo_cons_newline_none fuel hrest,
          matchSpacesPercent_space _ (by rfl)]
        exact ih rest hrest
      · rw [subMagicGo_cons_other fuel rest (Bool.eq_false_iff.mpr hc)]
        by_cases hp : (c == '%') = true
        · have hpeq : c = '%' := by simpa using hp
          subst hpeq
          cases rest with
          | nil => rw [subMagicGo_nil]; rfl
          | cons d rest2 =>
            have hd : d.isAlpha = false := by
              by_cases hda : d.isAlpha = true
              · exfalso; simp [matchSpacesPercent, hda] at h
              · exact Bool.eq_false_iff.mpr hda
            cases hX : subMagicGo fuel (d :: rest2) with
            | nil => rfl
            | cons e xs =>
              have he : e = d ∨ e = '\n' := by
                rcases subMagicGo_head fuel (d :: rest2) with hh | hh | hh
                · rw [hX] at hh; simp at hh
                · rw [hX] at hh; exact Or.inl (by simpa using hh)
                · rw [hX] at hh; exact Or.inr (by simpa using hh)
              have healpha : e.isAlpha = false := by
                rcases he with rfl | rfl
                · exact hd
                · rfl
              simp [matchSpacesPercent, healpha]
        · by_cases hs : isSpace c = true
          · have hrest : matchSpacesPercent rest = none := by
              rwa [matchSpacesPercent_space rest hs] at h
            rw [matchSpacesPercent_space _ hs]
            exact ih rest hrest
          · exact matchSpacesPercent_other _ (Bool.eq_false_iff.mpr hp)
              (Bool.eq_false_iff.mpr hs)

/-- The bang substitution leaves no text on which the bang pattern
could still match at the current position. -/
theorem matchSpacesBang_subBangGo : ∀ (fuel : Nat) (l : List Char),
    matchSpacesBang l = none →
    matchSpacesBang (subBangGo fuel l) = none := by
  intro fuel
  induction fuel with
  | zero => intro l h; rwa [subBangGo_zero]
  | succ fuel ih =>
    intro l h
    cases l with
    | nil => rwa [subBangGo_nil]
    | cons c rest =>
      by_cases hc : (c == '\n') = true
      · have hceq : c = '\n' := by simpa using hc
        subst hceq
        have hrest : matchSpacesBang rest = none := by
          rwa [matchSpacesBang_space rest (by rfl)] at h
        rw [subBangGo_cons_newline_none fuel hrest,
          matchSpacesBang_space _ (by rfl)]
        exact ih rest hrest
      · rw [subBangGo_cons_other fuel rest (Bool.eq_false_iff.mpr hc)]
        by_cases hb : (c == '!') = true
        · exfalso
          simp [matchSpacesBang, hb] at h
        · by_cases hs : isSpace c = true
          · have hrest : matchSpacesBang rest = none := by
              rwa [matchSpacesBang_space rest hs] at h
            rw [matchSpacesBang_space _ hs]
            exact ih rest hrest
          · exact matchSpacesBang_other _ (Bool.eq_false_iff.mpr hb)
              (Bool.eq_false_iff.mpr hs)

theorem hasMagic_suffix : ∀ {l s : List Char},
    s <:+ l → hasMagic l = false → hasMagic s = false := by
  intro l
  induction l with
  | nil =>
    intro s hs _
    rw [List.suffix_nil.mp hs]
    rfl
  | cons c rest ih =>
    intro s hs hm
    have hm0 := hm
    simp only [hasMagic] at hm0
    rcases Bool.or_eq_false_iff.mp hm0 with ⟨_, hrest⟩
    rcases List.suffix_cons_iff.mp hs with he | he
    · rw [he]; exact hm
    · exact ih he hrest

theorem hasBang_suffix : ∀ {l s : List Char},
    s <:+ l → hasBang l = false → hasBang s = false := by
  intro l
  induction l with
  | nil =>
    intro s hs _
    rw [List.suffix_nil.mp hs]
    rfl
  | cons c rest ih =>
    intro s hs hm
    have hm0 := hm
    simp only [hasBang] at hm0
    rcases Bool.or_eq_false_iff.mp hm0 with ⟨_, hrest⟩
    rcases List.suffix_cons_iff.mp hs with he | he
    · rw [he]; exact hm
    · exact ih he hrest

/-- After the percent substitution no occurrence of the percent
pattern remains anywhere in the text. -/
theorem hasMagic_subMagicGo : ∀ (fuel : Nat) (l : List Char), l.length ≤ fuel →
    hasMagic (subMagicGo fuel l) = false := by
  intro fuel
  induction fuel with
  | zero =>
    intro l hl
    have hnil : l = [] := List.eq_nil_of_length_eq_zero (Nat.le_zero.mp hl)
    subst hnil
    rfl
  | succ fuel ih =>
    intro l hl
    cases l with
    | nil => rw [subMagicGo_nil]; rfl
    | cons c rest =>
      have hlen : rest.length ≤ fuel := Nat.le_of_succ_le_succ (by simpa using hl)
      by_cases hc : (c == '\n') = true
      · have hceq : c = '\n' := by simpa using hc
        subst hceq
        cases hm : matchSpacesPercent rest with
        | some r =>
          rw [subMagicGo_cons_newline_some fuel hm]
          exact ih r (le_trans (matchSpacesPercent_suffix hm).length_le hlen)
        | none =>
          rw [subMagicGo_cons_newline_none fuel hm]
          simp only [hasMagic]
          rw [matchSpacesPercent_subMagicGo fuel rest hm]
          simp [ih rest hlen]
      · rw [subMagicGo_cons_other fuel rest (Bool.eq_false_iff.mpr hc)]
        simp only [hasMagic]
        simp [Bool.eq_false_iff.mpr hc, ih rest hlen]

/-- After the bang substitution no occurrence of the bang pattern
remains anywhere in the text. -/
theorem hasBang_subBangGo : ∀ (fuel : Nat) (l : List Char), l.length ≤ fuel →
    hasBang (subBangGo fuel l) = false := by
  intro fuel
  induction fuel with
  | zero =>
    intro l hl
    have hnil : l = [] := List.eq_nil_of_length_eq_zero (Nat.le_zero.mp hl)
    subst hnil
    rfl
  | succ fuel ih =>
    intro l hl
    cases l with
    | nil => rw [subBangGo_nil]; rfl
    | cons c rest =>
      have hlen : rest.length ≤ fuel := Nat.le_of_succ_le_succ (by simpa using hl)
      by_cases hc : (c == '\n') = true
      · have hceq : c = '\n' := by simpa using hc
        subst hceq
        cases hm : matchSpacesBang rest with
        | some r =>
          rw [subBangGo_cons_newline_some fuel hm]
          exact ih r (le_trans (matchSpacesBang_suffix hm).length_le hlen)
        | none =>
          rw [subBangGo_cons_newline_none fuel hm]
          simp only [hasBang]
          rw [matchSpacesBang_subBangGo fuel rest hm]
          simp [ih rest hlen]
      · rw [subBangGo_cons_other fuel rest (Bool.eq_false_iff.mpr hc)]
        simp only [hasBang]
        simp [Bool.eq_false_iff.mpr hc, ih rest hlen]

/-- The bang substitution cannot create a percent-pattern match at the
current position in a text that has no percent-pattern occurrence at
all (the percent pass runs first, so its postcondition supplies the
global hypothesis). -/
theorem matchSpacesPercent_subBangGo : ∀ (fuel : Nat) (l : List Char),
    matchSpacesPercent l = none → hasMagic l = false →
    matchSpacesPercent (subBangGo fuel l) = none := by
  intro fuel
  induction fuel with
  | zero => intro l h _; rwa [subBangGo_zero]
  | succ fuel ih =>
    intro l h hmagic
    cases l with
    | nil => rwa [subBangGo_nil]
    | cons c rest =>
      have hm0 := hmagic
      simp only [hasMagic] at hm0
      rcases Bool.or_eq_false_iff.mp hm0 with ⟨hand, hmrest⟩
      by_cases hc : (c == '\n') = true
      · have hceq : c = '\n' := by simpa using hc
        subst hceq
        have hpr : matchSpacesPercent rest = none := by
          rwa [matchSpacesPercent_space rest (by rfl)] at h
        cases hb : matchSpacesBang rest with
        | some r =>
          rw [subBangGo_cons_newline_some fuel hb]
          have hmr : hasMagic r = false :=
            hasMagic_suffix (matchSpacesBang_suffix hb) hmrest
          have hpr2 : matchSpacesPercent r = none := by
            rcases matchSpacesBang_shape hb with hr0 | ⟨t, ht⟩
            · subst hr0; rfl
            · subst ht
              have hmr0 := hmr
              simp only [hasMagic] at hmr0
              rcases Bool.or_eq_false_iff.mp hmr0 with ⟨hand2, _⟩
              rw [matchSpacesPercent_space t (by rfl)]
              cases hmp : matchSpacesPercent t with
              | none => rfl
              | some u => rw [hmp] at hand2; simp at hand2
          exact ih r hpr2 hmr
        | none =>
          rw [subBangGo_cons_newline_none fuel hb,
            matchSpacesPercent_space _ (by rfl)]
          exact ih rest hpr hmrest
      · rw [subBangGo_cons_other fuel rest (Bool.eq_false_iff.mpr hc)]
        by_cases hp : (c == '%') = true
        · have hpeq : c = '%' := by simpa using hp
          subst hpeq
          cases rest with
          | nil => rw [subBangGo_nil]; rfl
          | cons d rest2 =>
            have hd : d.isAlpha = false := by
              by_cases hda : d.isAlpha = true
              · exfalso; simp [matchSpacesPercent, hda] at h
              · exact Bool.eq_false_iff.mpr hda
            cases hX : subBangGo fuel (d :: rest2) with
            | nil => rfl
            | cons e xs =>
              have he : e = d ∨ e = '\n' := by
                rcases subBangGo_head fuel (d :: rest2) with hh | hh | hh
                · rw [hX] at hh; simp at hh
                · rw [hX] at hh; exact Or.inl (by simpa using hh)
                · rw [hX] at hh; exact Or.inr (by simpa using hh)
              have healpha : e.isAlpha = false := by
                rcases he with rfl | rfl
                · exact hd
                · rfl
              simp [matchSpacesPercent, healpha]
        · by_cases hs : isSpace c = true
          · have hrest : matchSpacesPercent rest = none := by
              rwa [matchSpacesPercent_space rest hs] at h
            rw [matchSpacesPercent_space _ hs]
            exact ih rest hrest hmrest
          · exact matchSpacesPercent_other _ (Bool.eq_false_iff.mpr hp)
              (Bool.eq_false_iff.mpr hs)

/-- The bang substitution preserves the absence of percent-pattern
occurrences. -/
theorem hasMagic_subBangGo : ∀ (fuel : Nat) (l : List Char), l.length ≤ fuel →
    hasMagic l = false → hasMagic (subBangGo fuel l) = false := by
  intro fuel
  induction fuel with
  | zero => intro l _ hm; rwa [subBangGo_zero]
  | succ fuel ih =>
    intro l hl hm
    cases l with
    | nil => rwa [subBangGo_nil]
    | cons c rest =>
      have hlen : rest.length ≤ fuel := Nat.le_of_succ_le_succ (by simpa using hl)
      have hm0 := hm
      simp only [hasMagic] at hm0
      rcases Bool.or_eq_false_iff.mp hm0 with ⟨hand, hmrest⟩
      by_cases hc : (c == '\n') = true
      · have hceq : c = '\n' := by simpa using hc
        subst hceq
        have hpr : matchSpacesPercent rest = none := by
          cases hmp : matchSpacesPercent rest with
          | none => rfl
          | some r => rw [hmp] at hand; simp at hand
        cases hb : matchSpacesBang rest with
        | some r =>
          rw [subBangGo_cons_newline_some fuel hb]
          exact ih r (le_trans (matchSpacesBang_suffix hb).length_le hlen)
            (hasMagic_suffix (matchSpacesBang_suffix hb) hmrest)
        | none =>
          rw [subBangGo_cons_newline_none fuel hb]
          simp only [hasMagic]
          rw [matchSpacesPercent_subBangGo fuel rest hpr hmrest]
          simp [ih rest hlen hmrest]
      · rw [subBangGo_cons_other fuel rest (Bool.eq_false_iff.mpr hc)]
        simp only [hasMagic]
        simp [Bool.eq_false_iff.mpr hc, ih rest hlen hmrest]

/-- A text without percent-pattern occurrences passes the percent
substitution unchanged. -/
theorem subMagicGo_id : ∀ (fuel : Nat) (l : List Char),
    hasMagic l = false → subMagicGo fuel l = l := by
  intro fuel
  induction fuel with
  | zero => intro l _; exact subMagicGo_zero l
  | succ fuel ih =>
    intro l hm
    cases l with
    | nil => exact subMagicGo_nil _
    | cons c rest =>
      have hm0 := hm
      simp only [hasMagic] at hm0
      rcases Bool.or_eq_false_iff.mp hm0 with ⟨hand, hrest⟩
      by_cases hc : (c == '\n') = true
      · have hceq : c = '\n' := by simpa using hc
        subst hceq
        have hpr : matchSpacesPercent rest = none := by
          cases hmp : matchSpacesPercent rest with
          | none => rfl
          | some r => rw [hmp] at hand; simp at hand
        rw [subMagicGo_cons_newline_none fuel hpr, ih rest hrest]
      · rw [subMagicGo_cons_other fuel rest (Bool.eq_false_iff.mpr hc), ih rest hrest]

/-- A text without bang-pattern occurrences passes the bang
substitution unchanged. -/
theorem subBangGo_id : ∀ (fuel : Nat) (l : List Char),
    hasBang l = false → subBangGo fuel l = l := by
  intro fuel
  induction fuel with
  | zero => intro l _; exact subBangGo_zero l
  | succ fuel ih =>
    intro l hm
    cases l with
    | nil => exact subBangGo_nil _
    | cons c rest =>
      have hm0 := hm
      simp only [hasBang] at hm0
      rcases Bool.or_eq_false_iff.mp hm0 with ⟨hand, hrest⟩
      by_cases hc : (c == '\n') = true
      · have hceq : c = '\n' := by simpa using hc
        subst hceq
        have hpr : matchSpacesBang rest = none := by
          cases hmp : matchSpacesBang rest with
          | none => rfl
          | some r => rw [hmp] at hand; simp at hand
        rw [subBangGo_cons_newline_none fuel hpr, ih rest hrest]
      · rw [subBangGo_cons_other fuel rest (Bool.eq_false_iff.mpr hc), ih rest hrest]

/-- C8 counterexample: a magic line at the very start of the text is
not stripped, against the claim that such a line is stripped too: the
first line of the input matches the whitespace-percent-letter shape,
yet the cleanup returns the text unchanged (both patterns require a
preceding newline), and the text differs from the claimed stripped
result. -/
theorem C8_first_line_not_stripped :
    (matchSpacesPercent ("%matplotlib inline\nimport os\n").data).isSome = true ∧
    strip_special_lines "%matplotlib inline\nimport os\n"
        = "%matplotlib inline\nimport os\n" ∧
    "%matplotlib inline\nimport os\n" ≠ "import os\n" :=
  ⟨rfl, rfl, by decide⟩

/-- C8 amended: after the cleanup no newline-preceded magic or
shell-escape line remains anywhere in the text (every such line was
stripped), and a text with no newline-preceded occurrence at all — in
particular one whose only magic line is the very first line, or one
where the shapes occur only inside other lines — is returned
completely unchanged. -/
theorem C8_stripped_lines (contents : String) :
    hasMagic (strip_special_lines contents).data = false ∧
    hasBang (strip_special_lines contents).data = false ∧
    (hasMagic contents.data = false → hasBang contents.data = false →
      strip_special_lines contents = contents) := by
  refine ⟨?_, ?_, ?_⟩
  · exact hasMagic_subBangGo _ _ le_rfl (hasMagic_subMagicGo _ _ le_rfl)
  · exact hasBang_subBangGo _ _ le_rfl
  · intro h1 h2
    show String.mk (subBangLines (subMagicLines contents.data)) = contents
    rw [show subMagicLines contents.data = contents.data from subMagicGo_id _ _ h1]
    rw [show subBangLines contents.data = contents.data from subBangGo_id _ _ h2]

/-- C8 witness: ordinary source text is passed through unchanged and
contains no residual pattern occurrence. -/
theorem C8_stripped_lines_witness :
    hasMagic (strip_special_lines "import os\n").data = false ∧
    hasBang (strip_special_lines "import os\n").data = false ∧
    strip_special_lines "import os\n" = "import os\n" :=
  ⟨(C8_stripped_lines "import os\n").1, (C8_stripped_lines "import os\n").2.1,
    (C8_stripped_lines "import os\n").2.2 rfl rfl⟩

end ImportUtils
